import Mathlib

/-!
Verification of the free/graded resolution bookkeeping layer
(`sage/homology/resolutions/free.pyx`, `sage/homology/resolutions/graded.pyx`
and the sibling layouts): the Singular resolution decoder, the graded shift
calculator, and the chain-complex accessor surface, embedded shallowly.
-/

deriving instance DecidableEq for Except

namespace SageRes

/-- Errors raised by the Python layer: `IndexError`, `ValueError(msg)`,
`TypeError(msg)`, `AttributeError`, and the unbound-local failure that occurs
when a name assigned in no branch is referenced. -/
inductive PyErr where
  | indexError
  | valueError (msg : String)
  | typeError (msg : String)
  | attributeError
  | unboundLocal
deriving DecidableEq, Repr

/-- One term of a Singular module-column polynomial: a module-component tag
(row index, `1`-based; `0` after re-tagging), an integer coefficient, and the
exponent vector of the monomial. -/
structure TTerm where
  comp : Nat
  coeff : Int
  exps : List Nat
deriving DecidableEq, Repr

/-- A Singular vector-encoding polynomial: an ordered term list (the `poly`
linked list); the empty list is the NULL polynomial. -/
abbrev TPoly := List TTerm

/-- A plain (component-free) polynomial as an ordered term list of
coefficient and exponent vector. -/
abbrev Poly := List (Int × List Nat)

/-- One module of the Singular resolution (`ideal *`): its declared rank
(rows) and its columns, each encoded as one row-tagged polynomial. -/
structure SMod where
  rank : Nat
  cols : List TPoly
deriving DecidableEq, Repr

/-- The Singular resolution handle (`syStrategy`): an optional minimal result
list and an optional full result list, each an array of possibly-NULL
modules whose length is the declared resolution length. -/
structure SRes where
  minres : Option (List (Option SMod))
  fullres : Option (List (Option SMod))
deriving DecidableEq, Repr

/-- A presentation matrix over the polynomial ring, stored column-major as it
is produced by the decoder: `colsEntries` has `ncols` columns of `nrows`
entries each. -/
structure PMat where
  nrows : Nat
  ncols : Nat
  colsEntries : List (List Poly)
deriving DecidableEq, Repr

instance : Inhabited PMat := ⟨⟨0, 0, []⟩⟩

/-- The per-row extraction of the destructive linked-list partition: the
terms of `p` tagged with component `i`, in order, re-tagged to component `0`
(the tag is dropped). -/
def extractComp (i : Nat) (p : TPoly) : Poly :=
  (p.filter (fun t => t.comp = i)).map (fun t => (t.coeff, t.exps))

variable {D : Type} [AddCommMonoid D] [DecidableEq D]

/-- Degree of a monomial with exponent vector `exps`:
`deg = sum over k of exps[k] * degrees[k]`. -/
def monDeg (degrees : List D) (exps : List Nat) : D :=
  (List.range degrees.length).foldl (fun a k => a + (exps.getD k 0) • (degrees.getD k 0)) 0

/-- Decode one column of a Singular module: for each row `i` in `1..rank`,
the extracted entry polynomial, and its homogeneous degree computed from its
first monomial (`None` sentinel for a NULL entry). -/
def decode_column (degrees : List D) (rank : Nat) (p : TPoly) : List Poly × List (Option D) :=
  let rows := (List.range rank).map (fun i0 =>
    let q := extractComp (i0 + 1) p
    (q, q.head?.map (fun t => monDeg degrees t.2)))
  (rows.map Prod.fst, rows.map Prod.snd)

/-- Decode one Singular module into a presentation matrix and the per-column
lists of per-row degree data (`matdegs`). -/
def decodeSMod (degrees : List D) (m : SMod) : PMat × List (List (Option D)) :=
  let cols := m.cols.map (decode_column degrees m.rank)
  (⟨m.rank, m.cols.length, cols.map Prod.fst⟩, cols.map Prod.snd)

/-- The decoder's `zero_mat` flag for a module: every entry across all rows
and columns is NULL (its recorded degree is the `None` sentinel). -/
def modZero (degrees : List D) (m : SMod) : Bool :=
  (decodeSMod degrees m).2.all (fun degs => degs.all Option.isNone)

/-- The decoder's walk over the result list: stop at a NULL entry, or at the
first module all of whose entries are NULL (that module is discarded);
otherwise decode the module and continue. -/
def to_sage_resolution_list (degrees : List D) :
    List (Option SMod) → List (PMat × List (List (Option D)))
  | [] => []
  | none :: _ => []
  | some m :: rest =>
    if modZero degrees m then []
    else decodeSMod degrees m :: to_sage_resolution_list degrees rest

/-- The graded decoder `to_sage_resolution_graded`: operate on the minimal
result list when present, else on the full result list, else fail with the
unusable-resolution error. -/
def to_sage_resolution_graded (degrees : List D) (r : SRes) :
    Except PyErr (List (PMat × List (List (Option D)))) :=
  match r.minres with
  | some mods => .ok (to_sage_resolution_list degrees mods)
  | none =>
    match r.fullres with
    | some mods => .ok (to_sage_resolution_list degrees mods)
    | none => .error (.valueError "Singular resolution is not usable")

/-- Python list indexing `xs[i]`: the element, or `IndexError` when out of
bounds. -/
def pyGet (xs : List D) (i : Nat) : Except PyErr D :=
  match xs.get? i with
  | some x => .ok x
  | none => .error .indexError

/-- The inner row scan of the shift calculator, at current row index `i`:
walk the column's per-row degree entries in order; at the first defined
degree `d`, look up `prev_shifts[i]` and yield `d + prev_shifts[i]`, then
break; if no row has a defined degree, yield nothing. -/
def scanRows (prev : List D) (col : List (Option D)) (i : Nat) : Except PyErr (Option D) :=
  match col with
  | [] => .ok none
  | none :: rest => scanRows prev rest (i + 1)
  | some d :: _ =>
    match pyGet prev i with
    | .ok e => .ok (some (d + e))
    | .error err => .error err

/-- One step of the shift calculator: for each column of the step's degree
data, append the shift contributed by its first defined row, if any. -/
def gradeStep (prev : List D) : List (List (Option D)) → Except PyErr (List D)
  | [] => .ok []
  | col :: rest =>
    match scanRows prev col 0 with
    | .error err => .error err
    | .ok s =>
      match gradeStep prev rest with
      | .error err => .error err
      | .ok others =>
        match s with
        | some v => .ok (v :: others)
        | none => .ok others

/-- The shift calculator loop over all resolution steps, threading each
step's computed shift list as the previous-shift vector of the next step. -/
def compute_res_shifts (prev : List D) : List (List (List (Option D))) → Except PyErr (List (List D))
  | [] => .ok []
  | degs :: rest =>
    match gradeStep prev degs with
    | .error err => .error err
    | .ok g =>
      match compute_res_shifts g rest with
      | .error err => .error err
      | .ok rs => .ok (g :: rs)

/-- The seed of the shift calculator: the caller-supplied shifts, or the
grading's zero element broadcast to the rank of the target module. -/
def startShifts (rank : Nat) (shifts : Option (List D)) : List D :=
  shifts.getD (List.replicate rank 0)

/-- Index and value of the first defined entry of a column, scanning from
row index `i` (specification-side helper, written from the spec's words). -/
def firstDefinedFrom (i : Nat) : List (Option D) → Option (Nat × D)
  | [] => none
  | none :: rest => firstDefinedFrom (i + 1) rest
  | some d :: _ => some (i, d)

/-- Modelled from the spec: the shift of a column is the degree of the first
row `r` with a defined degree, plus the previous shift at position `r`. -/
def specColumnShift (prev : List D) (col : List (Option D)) : Option D :=
  (firstDefinedFrom 0 col).bind (fun rd => (prev.get? rd.1).map (fun e => rd.2 + e))

/-- Modelled from the spec: a step's shift vector collects the per-column
shifts of the columns that have a defined row. -/
def specStep (prev : List D) (degs : List (List (Option D))) : List D :=
  degs.filterMap (specColumnShift prev)

/-- Modelled from the spec: the shift vectors of all steps, each step seeded
with the previous step's shift vector. -/
def spec_res_shifts (prev : List D) : List (List (List (Option D))) → List (List D)
  | [] => []
  | degs :: rest =>
    let g := specStep prev degs
    g :: spec_res_shifts g rest

/-- Result of `FreeResolution.differential`: the initial structure map
(`maps[0]`, the coercion to the quotient), a free-module hom given by
left multiplication by a stored matrix, or a zero hom between the given
ranks. -/
inductive Diff where
  | initial
  | hom (domRank codomRank : Nat) (mat : PMat)
  | zeroHom (domRank codomRank : Nat)
deriving DecidableEq, Repr

/-- The chain `FreeResolution` stores `maps = [d0] ++ mats`, so its length is
the number of stored presentation matrices and `maps[i] = mats[i-1]` for
`i ≥ 1`. `differential(i)`: negative index errors; `0` returns the initial
map; `length+1` returns the zero hom into the last module; larger indices
return the zero hom between zero modules; otherwise the stored matrix acts
by left multiplication. At `i = length+1` with no stored matrix, `maps[i-1]`
is the initial map, which has no column count (attribute error). -/
def free_resolution_differential (mats : List PMat) (i : Int) : Except PyErr Diff :=
  if i < 0 then .error .indexError
  else if i = 0 then .ok .initial
  else if i = (mats.length : Int) + 1 then
    match mats.getLast? with
    | some a => .ok (.zeroHom 0 a.ncols)
    | none => .error .attributeError
  else if i > (mats.length : Int) + 1 then .ok (.zeroHom 0 0)
  else
    let a := mats.getD (i.toNat - 1) default
    .ok (.hom a.ncols a.nrows a)

/-- The matrix of a `Diff` value, as `matrix(i)` extracts it past the length:
the zero hom from the rank-0 module yields an empty matrix with one (empty)
column per codomain generator. -/
def diffMatrix : Diff → Except PyErr PMat
  | .initial => .error .attributeError
  | .hom _ _ a => .ok a
  | .zeroHom _ t => .ok ⟨0, t, List.replicate t []⟩

/-- `FreeResolution.matrix(i)`: index `i ≤ 0` errors; `1 ≤ i ≤ length`
returns the stored matrix; larger indices delegate to
`differential(i).matrix()`. -/
def free_resolution_matrix (mats : List PMat) (i : Int) : Except PyErr PMat :=
  if i ≤ 0 then .error .indexError
  else if i ≤ (mats.length : Int) then .ok (mats.getD (i.toNat - 1) default)
  else
    match free_resolution_differential mats i with
    | .ok d => diffMatrix d
    | .error e => .error e

/-- `FreeResolution.__getitem__(i)` (module lookup): negative index errors;
beyond the length the zero module (rank 0); at the length the column count
of `maps[length]`; below it the row count of `maps[i+1]`. At the length with
no stored matrix, `maps[0]` is the initial map, which has no column count. -/
def free_resolution_getitem (mats : List PMat) (i : Int) : Except PyErr Nat :=
  if i < 0 then .error .indexError
  else if i > (mats.length : Int) then .ok 0
  else if i = (mats.length : Int) then
    match mats.getLast? with
    | some a => .ok a.ncols
    | none => .error .attributeError
  else .ok ((mats.getD i.toNat default).nrows)

/-- The modules-layout `GradedFreeResolution.matrix(i)`: raises the
invalid-index error for every `i` outside `1..length` and returns the stored
matrix otherwise. -/
def graded_module_layout_matrix (res_mats : List PMat) (i : Int) : Except PyErr PMat :=
  if i ≤ 0 ∨ i > (res_mats.length : Int) then
    .error .indexError
  else .ok (res_mats.getD (i.toNat - 1) default)

/-- The graded resolution data held by `GradedFreeResolution_polynomial`
after construction: the shifts of the target module, the decoded matrices
and the computed shift lists of each step. -/
structure GradedData (D : Type) where
  baseShifts : List D
  resMats : List PMat
  resShifts : List (List D)
deriving DecidableEq, Repr

/-- `GradedFreeResolution_polynomial.shifts(i)`: negative index errors;
`0` returns the target's shifts; past the length the empty list; otherwise
the step's computed shift list. -/
def graded_shifts (g : GradedData D) (i : Int) : Except PyErr (List D) :=
  if i < 0 then .error .indexError
  else if i = 0 then .ok g.baseShifts
  else if i > (g.resMats.length : Int) then .ok []
  else .ok (g.resShifts.getD (i.toNat - 1) [])

/-- `betti(i, a)` with an explicit degree `a`: the number of shifts at step
`i` equal to `a` (the dictionary is built for the single key `a`, so the
final lookup always finds it). -/
def graded_betti_at (g : GradedData D) (i : Int) (a : D) : Except PyErr Nat :=
  match graded_shifts g i with
  | .error e => .error e
  | .ok s => .ok ((s.filter (fun d => d = a)).length)

/-- Insertion-order keys of the Python dictionary built by iterating a list:
each value appears once, at its first occurrence. -/
def pyDictKeys : List D → List D
  | [] => []
  | s :: rest => s :: (pyDictKeys rest).filter (fun t => t ≠ s)

/-- `betti(i)` without a degree: the dictionary mapping each occurring shift
to the number of step-`i` generators with that shift. -/
def graded_betti_all (g : GradedData D) (i : Int) : Except PyErr (List (D × Nat)) :=
  match graded_shifts g i with
  | .error e => .error e
  | .ok s => .ok ((pyDictKeys s).map (fun a => (a, (s.filter (fun d => d = a)).length)))

/-- Accumulate the Laurent-monomial terms of `K_polynomial` over the steps,
with the running sign of the current step. -/
def kTermsAux (sign : Int) : List (List Int) → List (Int × Int)
  | [] => []
  | step :: rest => step.map (fun v => (sign, v)) ++ kTermsAux (-sign) rest

/-- `K_polynomial()` in the single grading: the term list starting from the
constant `1` and adding `sign * t^v` for each shift `v` of each step, the
sign alternating per step starting from `-1`. Terms are (coefficient,
exponent) pairs of the Laurent polynomial ring in `t`. -/
def K_polynomial (g : GradedData Int) : List (Int × Int) :=
  (1, 0) :: kTermsAux (-1) (g.resShifts.take g.resMats.length)

/-- Coefficient of `t^n` in a term list. -/
def kCoeff (ts : List (Int × Int)) (n : Int) : Int :=
  (ts.map (fun t => if t.2 = n then t.1 else 0)).sum

/-- Singular commands the constructor can invoke: the module conversion and
the resolution commands of the four algorithm variants. -/
inductive EngineCmd where
  | moduleCmd
  | mres
  | std
  | sres
  | nres
  | resCmd
  | minres
deriving DecidableEq, Repr

/-- The algorithm dispatch of the constructors: the resolution-command
sequence of each recognized variant. The source has no trailing `else`
branch, so an unrecognized selector binds nothing. -/
def algorithm_dispatch (alg : String) : Option (List EngineCmd) :=
  if alg = "minimal" then some [.mres]
  else if alg = "shreyer" then some [.std, .sres, .minres]
  else if alg = "standard" then some [.nres, .minres]
  else if alg = "heuristic" then some [.std, .resCmd, .minres]
  else none

/-- Modelled from the spec: the configuration errors of the error taxonomy
are the immediately-raised `ValueError`/`TypeError` construction checks. -/
def isConfigError : PyErr → Bool
  | .valueError _ => true
  | .typeError _ => true
  | _ => false

/-- The post-dispatch body of `GradedFreeResolution_polynomial.__init__`,
with the engine's answer `engineOut` taken as an opaque input: check the
degrees length, convert to a module (an engine call made before the
algorithm dispatch), default the shifts, select the resolution commands,
decode, and run the shift calculator. With an unrecognized algorithm no
branch assigns the resolution handle `r`, and referencing it at the decoder
call raises the unbound-local error. Returns the engine commands invoked
together with the constructed data. -/
def GradedFreeResolution_init (nvars : Nat) (degrees : List D) (shifts : Option (List D))
    (rank : Nat) (algorithm : String) (engineOut : SRes) :
    Except PyErr (List EngineCmd × GradedData D) :=
  if degrees.length ≠ nvars then
    .error (.valueError "the length of degrees does not match the number of generators")
  else
    let prev := startShifts rank shifts
    match algorithm_dispatch algorithm with
    | none => .error .unboundLocal
    | some cmds =>
      match to_sage_resolution_graded degrees engineOut with
      | .error e => .error e
      | .ok decoded =>
        match compute_res_shifts prev (decoded.map Prod.snd) with
        | .error e => .error e
        | .ok res_shifts =>
          .ok (EngineCmd.moduleCmd :: cmds, ⟨prev, decoded.map Prod.fst, res_shifts⟩)

/-- Product of two monomial exponent vectors: componentwise sum, padding the
shorter vector with zeros. -/
def monMul (e1 e2 : List Nat) : List Nat :=
  List.zipWithAll (fun a b => a.getD 0 + b.getD 0) e1 e2

/-- Product of two term-list polynomials: all pairwise term products. -/
def polyMul (p q : Poly) : Poly :=
  (p.map (fun t1 => q.map (fun t2 => (t1.1 * t2.1, monMul t1.2 t2.2)))).flatten

/-- Sum of a list of term-list polynomials: concatenation of the terms. -/
def polySum (l : List Poly) : Poly :=
  l.foldr (fun a b => a ++ b) []

/-- Coefficient of the monomial with exponent vector `m` in a term list. -/
def coeffAt (p : Poly) (m : List Nat) : Int :=
  (p.map (fun t => if t.2 = m then t.1 else 0)).sum

/-- A term list represents the zero polynomial if every monomial occurring
in it has total coefficient zero. -/
def polyZeroB (p : Poly) : Bool :=
  p.all (fun t => coeffAt p t.2 = 0)

/-- Entry of a column-major presentation matrix at row `r`, column `c`. -/
def matEntry (a : PMat) (r c : Nat) : Poly :=
  (a.colsEntries.getD c []).getD r []

/-- Entry `(r, c)` of the matrix product `a * b`. -/
def matMulEntry (a b : PMat) (r c : Nat) : Poly :=
  polySum ((List.range a.ncols).map (fun k => polyMul (matEntry a r k) (matEntry b k c)))

/-- The polynomial matrix product `a * b` is the zero matrix: every entry is
the zero polynomial. -/
def matMulZeroB (a b : PMat) : Bool :=
  (List.range a.nrows).all (fun r => (List.range b.ncols).all (fun c => polyZeroB (matMulEntry a b r c)))

/-- Standard grading of the four variables `x, y, z, w`. -/
def exDegrees : List Int := [1, 1, 1, 1]

/-- First Singular module of the recorded resolution of the ideal
`(y*w - z^2, -x*w + y*z, x*z - y^2)`: rank 1, columns
`z^2 - y*w`, `y*z - x*w`, `y^2 - x*z` tagged on row 1. -/
def exMod1 : SMod :=
  ⟨1, [[⟨1, 1, [0, 0, 2, 0]⟩, ⟨1, -1, [0, 1, 0, 1]⟩],
       [⟨1, 1, [0, 1, 1, 0]⟩, ⟨1, -1, [1, 0, 0, 1]⟩],
       [⟨1, 1, [0, 2, 0, 0]⟩, ⟨1, -1, [1, 0, 1, 0]⟩]]⟩

/-- Second Singular module: rank 3, columns `(-y, z, -w)` and `(x, -y, z)`
with terms tagged by their row. -/
def exMod2 : SMod :=
  ⟨3, [[⟨1, -1, [0, 1, 0, 0]⟩, ⟨2, 1, [0, 0, 1, 0]⟩, ⟨3, -1, [0, 0, 0, 1]⟩],
       [⟨1, 1, [1, 0, 0, 0]⟩, ⟨2, -1, [0, 1, 0, 0]⟩, ⟨3, 1, [0, 0, 1, 0]⟩]]⟩

/-- The spurious trailing zero module Singular leaves in the resolution. -/
def exModZero : SMod := ⟨2, [[]]⟩

/-- The recorded engine handle for the example: a minimal result list of the
two genuine modules followed by the trailing zero module. -/
def exSRes : SRes := ⟨some [some exMod1, some exMod2, some exModZero], none⟩

/-- The constructed graded resolution of the example. -/
def exInit : Except PyErr (List EngineCmd × GradedData Int) :=
  GradedFreeResolution_init 4 exDegrees none 1 "shreyer" exSRes

end SageRes

namespace SageRes

/-- The decoded first presentation matrix of the example. -/
def exMat1 : PMat := (decodeSMod exDegrees exMod1).1

/-- The decoded second presentation matrix of the example. -/
def exMat2 : PMat := (decodeSMod exDegrees exMod2).1

/-- The graded data the constructor produces for the example. -/
def exG : GradedData Int := ⟨[0], [exMat1, exMat2], [[2, 2, 2], [3, 3]]⟩

end SageRes

namespace SageRes

variable {D : Type} [AddCommMonoid D] [DecidableEq D]

/-- The row scan of the shift calculator realizes the first-defined-row rule
whenever it returns without an index error. -/
theorem scanRows_ok {prev : List D} {col : List (Option D)} {i : Nat} {r : Option D}
    (h : scanRows prev col i = .ok r) :
    r = (firstDefinedFrom i col).bind (fun rd => (prev.get? rd.1).map (fun e => rd.2 + e)) := by
  induction col generalizing i with
  | nil =>
    simp only [scanRows] at h
    cases h
    simp [firstDefinedFrom]
  | cons hd tl ih =>
    cases hd with
    | none =>
      simp only [scanRows] at h
      simpa [firstDefinedFrom] using ih h
    | some d =>
      simp only [scanRows, pyGet] at h
      cases hget : prev.get? i with
      | none => rw [hget] at h; cases h
      | some e =>
        rw [hget] at h
        cases h
        simp only [firstDefinedFrom, Option.some_bind, hget, Option.map_some']

/-- One calculator step realizes the per-column specification whenever it
returns without an index error. -/
theorem gradeStep_ok {prev : List D} {degs : List (List (Option D))} {g : List D}
    (h : gradeStep prev degs = .ok g) : g = specStep prev degs := by
  induction degs generalizing g with
  | nil =>
    simp only [gradeStep] at h
    cases h
    simp [specStep]
  | cons col rest ih =>
    cases hs : scanRows prev col 0 with
    | error e => simp [gradeStep, hs] at h
    | ok s =>
      cases hr : gradeStep prev rest with
      | error e => simp [gradeStep, hs, hr] at h
      | ok others =>
        have hcol : specColumnShift prev col = s := (scanRows_ok hs).symm
        cases s with
        | some v =>
          simp only [gradeStep, hs, hr] at h
          cases h
          simp [specStep, List.filterMap_cons, hcol, ih hr]
        | none =>
          simp only [gradeStep, hs, hr] at h
          cases h
          simp [specStep, List.filterMap_cons, hcol, ih hr]

/-- The calculator loop realizes the per-step specification, threading each
step's output as the next step's previous-shift vector, whenever it returns
without an index error. -/
theorem compute_res_shifts_ok {prev : List D} {l : List (List (List (Option D)))}
    {out : List (List D)} (h : compute_res_shifts prev l = .ok out) :
    out = spec_res_shifts prev l := by
  induction l generalizing prev out with
  | nil =>
    simp only [compute_res_shifts] at h
    cases h
    simp [spec_res_shifts]
  | cons degs rest ih =>
    cases hg : gradeStep prev degs with
    | error e => simp [compute_res_shifts, hg] at h
    | ok g =>
      cases hr : compute_res_shifts g rest with
      | error e => simp [compute_res_shifts, hg, hr] at h
      | ok rs =>
        simp only [compute_res_shifts, hg, hr] at h
        cases h
        simp [spec_res_shifts, gradeStep_ok hg, ih hr]

/-- C1. For every graded resolution built by the constructor, the shift of
generator `j` at step `k` is found by scanning the rows of column `j` in
increasing order, taking the first row `r` with a defined degree entry `e`
and setting the shift to `e + prev_shift[r]`; the previous-shift vector of
step 1 is the zero degree broadcast to the target rank (or the
caller-supplied shifts), and each step's computed shift list seeds the next
step. -/
theorem c1_shift_calculator (rank : Nat) (shifts : Option (List D))
    (degs : List (List (List (Option D)))) (out : List (List D))
    (h : compute_res_shifts (startShifts rank shifts) degs = .ok out) :
    out = spec_res_shifts (startShifts rank shifts) degs
    ∧ startShifts rank (none : Option (List D)) = List.replicate rank 0
    ∧ ∀ l : List D, startShifts rank (some l) = l := by
  refine ⟨compute_res_shifts_ok h, rfl, fun l => rfl⟩

/-- C1, witnessed on the recorded degree data of the twisted-cubic example:
the calculator agrees with the first-defined-row specification there. -/
theorem c1_witness :
    compute_res_shifts (startShifts 1 (none : Option (List Int)))
        [[[some 2], [some 2], [some 2]],
         [[some 1, some 1, some 1], [some 1, some 1, some 1]]] = .ok [[2, 2, 2], [3, 3]]
    ∧ ([[2, 2, 2], [3, 3]] : List (List Int)) =
        spec_res_shifts (startShifts 1 (none : Option (List Int)))
          [[[some 2], [some 2], [some 2]],
           [[some 1, some 1, some 1], [some 1, some 1, some 1]]] :=
  ⟨by decide,
   (c1_shift_calculator 1 none
      [[[some 2], [some 2], [some 2]],
       [[some 1, some 1, some 1], [some 1, some 1, some 1]]]
      [[2, 2, 2], [3, 3]] (by decide)).1⟩

/-- No matrix kept by the decoder walk is all-null: such a matrix stops the
walk and is discarded. -/
theorem to_sage_resolution_list_no_zero (degrees : List D) (mods : List (Option SMod)) :
    ∀ md ∈ to_sage_resolution_list degrees mods,
      md.2.all (fun l => l.all Option.isNone) = false := by
  induction mods with
  | nil => simp [to_sage_resolution_list]
  | cons hd tl ih =>
    cases hd with
    | none => simp [to_sage_resolution_list]
    | some m =>
      by_cases hz : modZero degrees m = true
      · simp [to_sage_resolution_list, hz]
      · intro md hmd
        rw [to_sage_resolution_list, if_neg hz] at hmd
        rcases List.mem_cons.mp hmd with hmd | hmd
        · rw [hmd]
          have hzf : modZero degrees m = false := Bool.eq_false_iff.mpr hz
          simpa [modZero] using hzf
        · exact ih md hmd

/-- Helper for the decoder walk on a prefix of decodable modules followed by
a terminator. -/
theorem to_sage_resolution_list_prefix (degrees : List D) (front : List SMod)
    (stopper : List (Option SMod))
    (hfront : ∀ m ∈ front, modZero degrees m = false)
    (hstop : stopper = [] ∨ (∃ rest, stopper = none :: rest)
      ∨ (∃ m rest, stopper = some m :: rest ∧ modZero degrees m = true)) :
    to_sage_resolution_list degrees (front.map some ++ stopper) =
      front.map (decodeSMod degrees) := by
  induction front with
  | nil =>
    simp only [List.map_nil, List.nil_append]
    rcases hstop with h | ⟨rest, h⟩ | ⟨m, rest, h, hz⟩
    · rw [h]; rfl
    · rw [h]; rfl
    · rw [h, to_sage_resolution_list, if_pos hz]
  | cons f fs ih =>
    have hf : modZero degrees f = false := hfront f (by simp)
    simp only [List.map_cons, List.cons_append]
    rw [to_sage_resolution_list, if_neg (by simp [hf])]
    rw [ih (fun m hm => hfront m (by simp [hm]))]

/-- C2. The decoder returns exactly the matrices preceding the first
terminator: it walks the engine's list in order, stops at a null entry or at
an all-null matrix, discards the all-null matrix, and never includes an
all-null matrix in its output; a list of `n` decodable matrices followed by
a terminator (or by the end of the declared list) yields exactly `n`
matrices, the decodings of the prefix. -/
theorem c2_decoder_termination (degrees : List D) (front : List SMod)
    (stopper : List (Option SMod))
    (hfront : ∀ m ∈ front, modZero degrees m = false)
    (hstop : stopper = [] ∨ (∃ rest, stopper = none :: rest)
      ∨ (∃ m rest, stopper = some m :: rest ∧ modZero degrees m = true)) :
    to_sage_resolution_list degrees (front.map some ++ stopper) =
      front.map (decodeSMod degrees)
    ∧ (to_sage_resolution_list degrees (front.map some ++ stopper)).length = front.length
    ∧ ∀ mods : List (Option SMod), ∀ md ∈ to_sage_resolution_list degrees mods,
        md.2.all (fun l => l.all Option.isNone) = false := by
  have hmain := to_sage_resolution_list_prefix degrees front stopper hfront hstop
  exact ⟨hmain, by rw [hmain]; simp, to_sage_resolution_list_no_zero degrees⟩

/-- C2, witnessed on the recorded engine output of the example: the two
genuine modules are decoded and the trailing zero module is discarded. -/
theorem c2_witness :
    to_sage_resolution_list exDegrees
        (([exMod1, exMod2] : List SMod).map some ++ [some exModZero]) =
      [decodeSMod exDegrees exMod1, decodeSMod exDegrees exMod2]
    ∧ (to_sage_resolution_list exDegrees
        (([exMod1, exMod2] : List SMod).map some ++ [some exModZero])).length = 2 :=
  have h := c2_decoder_termination exDegrees [exMod1, exMod2] [some exModZero]
    (by decide) (Or.inr (Or.inr ⟨exModZero, [], rfl, by decide⟩))
  ⟨h.1, h.2.1⟩

/-- C7. The decoder operates on the minimal result list when the handle
exposes one, otherwise falls back to the full result list, and fails with
the unusable-resolution `ValueError` exactly when the handle exposes
neither; in that case no matrix is produced. -/
theorem c7_result_list_selection (degrees : List D) (r : SRes) :
    (∀ mods, r.minres = some mods →
      to_sage_resolution_graded degrees r = .ok (to_sage_resolution_list degrees mods))
    ∧ (r.minres = none → ∀ mods, r.fullres = some mods →
      to_sage_resolution_graded degrees r = .ok (to_sage_resolution_list degrees mods))
    ∧ (r.minres = none → r.fullres = none →
      to_sage_resolution_graded degrees r =
        .error (.valueError "Singular resolution is not usable")
      ∧ ∀ out, to_sage_resolution_graded degrees r ≠ .ok out) := by
  refine ⟨fun mods hm => ?_, fun hm mods hf => ?_, fun hm hf => ?_⟩
  · simp [to_sage_resolution_graded, hm]
  · simp [to_sage_resolution_graded, hm, hf]
  · constructor
    · simp [to_sage_resolution_graded, hm, hf]
    · intro out
      simp [to_sage_resolution_graded, hm, hf]

/-- C7, witnessed: a handle with a minimal list uses it, and a handle with
neither list fails with the unusable-resolution error. -/
theorem c7_witness :
    to_sage_resolution_graded exDegrees exSRes =
      .ok (to_sage_resolution_list exDegrees [some exMod1, some exMod2, some exModZero])
    ∧ to_sage_resolution_graded exDegrees (⟨none, none⟩ : SRes) =
      .error (.valueError "Singular resolution is not usable") :=
  ⟨(c7_result_list_selection exDegrees exSRes).1 _ rfl,
   ((c7_result_list_selection exDegrees (⟨none, none⟩ : SRes)).2.2 rfl rfl).1⟩

/-- Modelled from the spec: the alternating, per-step sum of the
K-polynomial coefficient at exponent `n`, with `sign` the sign of the first
remaining step: each step contributes its sign times the number of its
shifts equal to `n`. -/
def specAltSum (sign n : Int) : List (List Int) → Int
  | [] => 0
  | step :: rest =>
    sign * ((step.filter (fun v => v = n)).length : Int) + specAltSum (-sign) n rest

/-- Summing `sign` over the elements of a list equal to `n` counts them. -/
theorem sum_if_eq (sign n : Int) (step : List Int) :
    (step.map (fun v => if v = n then sign else 0)).sum
      = sign * ((step.filter (fun v => v = n)).length : Int) := by
  induction step with
  | nil => simp
  | cons v rest ih =>
    by_cases hv : v = n
    · simp only [List.map_cons, List.sum_cons, if_pos hv, ih, List.filter_cons,
        decide_eq_true_eq, hv, if_true, List.length_cons]
      push_cast
      ring
    · simp only [List.map_cons, List.sum_cons, if_neg hv, ih, List.filter_cons,
        decide_eq_true_eq, hv, if_false]
      simp [hv]

/-- Coefficient extraction from the accumulated K-polynomial terms agrees
with the alternating per-step sum. -/
theorem kTermsAux_coeff (sign n : Int) (l : List (List Int)) :
    kCoeff (kTermsAux sign l) n = specAltSum sign n l := by
  induction l generalizing sign with
  | nil => rfl
  | cons step rest ih =>
    show kCoeff (step.map (fun v => (sign, v)) ++ kTermsAux (-sign) rest) n = _
    rw [kCoeff, List.map_append, List.sum_append]
    have h1 : ((step.map (fun v => (sign, v))).map
        (fun t => if t.2 = n then t.1 else 0)).sum
        = sign * ((step.filter (fun v => v = n)).length : Int) := by
      rw [List.map_map]
      exact sum_if_eq sign n step
    rw [h1]
    show _ = sign * _ + specAltSum (-sign) n rest
    rw [← ih (-sign)]
    rfl

/-- C3. The K-polynomial is `1` plus, for each step `i` from `1` to the
length, `(-1)^i` times the sum of the monomials `t^shift` over that step's
shifts; on the twisted-cubic example the constructed resolution has length
2, step-1 shifts `[2,2,2]`, step-2 shifts `[3,3]`, and the K-polynomial is
`1 - 3*t^2 + 2*t^3`. -/
theorem c3_k_polynomial :
    (∀ (g : GradedData Int) (n : Int),
      kCoeff (K_polynomial g) n =
        (if n = 0 then 1 else 0)
          + specAltSum (-1) n (g.resShifts.take g.resMats.length))
    ∧ exInit = .ok ([.moduleCmd, .std, .sres, .minres], exG)
    ∧ exG.resMats.length = 2
    ∧ exG.resShifts = [[2, 2, 2], [3, 3]]
    ∧ ∀ n : Int, kCoeff (K_polynomial exG) n =
        (if n = 0 then 1 else if n = 2 then -3 else if n = 3 then 2 else 0) := by
  refine ⟨?_, by decide, by decide, by decide, ?_⟩
  · intro g n
    rw [K_polynomial, kCoeff]
    simp only [List.map_cons, List.sum_cons]
    rw [← kCoeff, kTermsAux_coeff]
    congr 1
    by_cases h : n = 0 <;> simp [h, eq_comm]
  · intro n
    have hK : K_polynomial exG = [(1, 0), (-1, 2), (-1, 2), (-1, 2), (1, 3), (1, 3)] := by
      decide
    rw [hK, kCoeff]
    simp only [List.map_cons, List.map_nil, List.sum_cons, List.sum_nil]
    split_ifs <;> omega

/-- C8. For a resolution whose stored presentation matrices satisfy the
syzygy contract (each matrix presents the kernel of the previous map, so
consecutive products vanish), the accessor exposes the chain-complex
property: for every `i >= 1` with `i + 1 <= length`, `matrix(i)` and
`matrix(i+1)` are returned and their polynomial matrix product is zero. -/
theorem c8_chain_property (mats : List PMat)
    (hchain : ∀ (k : Nat) (a b : PMat), mats.get? k = some a →
      mats.get? (k + 1) = some b → matMulZeroB a b = true)
    (i : Int) (h1 : 1 ≤ i) (h2 : i + 1 ≤ (mats.length : Int)) :
    ∃ a b, free_resolution_matrix mats i = .ok a
      ∧ free_resolution_matrix mats (i + 1) = .ok b
      ∧ matMulZeroB a b = true := by
  have hi0 : ¬ i ≤ 0 := by omega
  have hi1 : ¬ i + 1 ≤ 0 := by omega
  have hle : i ≤ (mats.length : Int) := by omega
  have hle1 : i + 1 ≤ (mats.length : Int) := h2
  have hk : i.toNat - 1 < mats.length := by omega
  have hk1 : i.toNat < mats.length := by omega
  have hsucc : i.toNat = (i.toNat - 1) + 1 := by omega
  have htn : (i + 1).toNat - 1 = i.toNat := by omega
  have hga : mats.get? (i.toNat - 1) = some (mats.getD (i.toNat - 1) default) := by
    rw [List.getD_eq_getElem?_getD, List.get?_eq_getElem?]
    rw [List.getElem?_eq_getElem hk]
    rfl
  have hgb : mats.get? (i.toNat - 1 + 1) = some (mats.getD i.toNat default) := by
    rw [List.getD_eq_getElem?_getD, List.get?_eq_getElem?, ← hsucc]
    rw [List.getElem?_eq_getElem hk1]
    rfl
  refine ⟨mats.getD (i.toNat - 1) default, mats.getD i.toNat default, ?_, ?_, ?_⟩
  · rw [free_resolution_matrix, if_neg hi0, if_pos hle]
  · rw [free_resolution_matrix, if_neg hi1, if_pos hle1, htn]
  · exact hchain (i.toNat - 1) _ _ hga hgb

/-- C8, witnessed on the decoded matrices of the example: the product of the
two recorded presentation matrices is the zero matrix. -/
theorem c8_witness :
    ∃ a b, free_resolution_matrix [exMat1, exMat2] 1 = .ok a
      ∧ free_resolution_matrix [exMat1, exMat2] 2 = .ok b
      ∧ matMulZeroB a b = true := by
  have h := c8_chain_property [exMat1, exMat2]
    (by
      intro k a b hka hkb
      have hklt : k + 1 < 2 := by
        have h2 := List.get?_eq_some.mp hkb
        simpa using h2.1
      have hk0 : k = 0 := by omega
      subst hk0
      have ha : a = exMat1 := by simpa using hka.symm
      have hb : b = exMat2 := by simpa using hkb.symm
      subst ha
      subst hb
      decide)
    1 (by omega) (by norm_num)
  simpa using h

/-- Filtering a list for a value it does not contain leaves nothing. -/
theorem betti_filter_nil {l : List D} {a : D} (ha : a ∉ l) :
    (l.filter (fun d => d = a)).length = 0 := by
  rw [List.length_eq_zero]
  apply List.filter_eq_nil_iff.mpr
  intro d hd
  simp only [decide_eq_true_eq]
  intro hda
  exact ha (hda ▸ hd)

/-- C9. For a nonnegative index `i`, the shift query succeeds, and `betti`
with an explicit degree that occurs among no step-`i` generator's shifts
returns `0` rather than raising an error. -/
theorem c9_betti_zero (g : GradedData D) (i : Int) (a : D) (hi : 0 ≤ i) :
    ∃ l, graded_shifts g i = .ok l ∧ (a ∉ l → graded_betti_at g i a = .ok 0) := by
  have hok : ∃ l, graded_shifts g i = .ok l := by
    unfold graded_shifts
    rw [if_neg (by omega)]
    by_cases h0 : i = 0
    · rw [if_pos h0]
      exact ⟨_, rfl⟩
    · rw [if_neg h0]
      by_cases hlen : i > (g.resMats.length : Int)
      · rw [if_pos hlen]
        exact ⟨_, rfl⟩
      · rw [if_neg hlen]
        exact ⟨_, rfl⟩
  rcases hok with ⟨l, hl⟩
  refine ⟨l, hl, fun ha => ?_⟩
  simp [graded_betti_at, hl, betti_filter_nil ha]

/-- C9, witnessed on the example: degree 5 occurs among no step-1 shifts and
its Betti number is 0. -/
theorem c9_witness :
    graded_shifts exG 1 = .ok [2, 2, 2] ∧ graded_betti_at exG 1 5 = .ok 0 := by
  rcases c9_betti_zero exG 1 (5 : Int) (by norm_num) with ⟨l, hl, hb⟩
  have hl2 : l = [2, 2, 2] := by
    have : graded_shifts exG 1 = .ok [2, 2, 2] := by decide
    rw [this] at hl
    exact (Except.ok.inj hl).symm
  subst hl2
  exact ⟨hl, hb (by decide)⟩

/-- A column whose entries are all the undefined sentinel never breaks out
of the row scan: the scan ends without error and yields nothing. -/
theorem scanRows_all_none {prev : List D} {col : List (Option D)}
    (h : ∀ d ∈ col, d = none) : ∀ i, scanRows prev col i = .ok none := by
  induction col with
  | nil => intro i; rfl
  | cons hd tl ih =>
    intro i
    have hhd : hd = none := h hd (by simp)
    subst hhd
    simp only [scanRows]
    exact ih (fun d hd => h d (by simp [hd])) (i + 1)

/-- An all-undefined column has no first defined row. -/
theorem firstDefinedFrom_none {col : List (Option D)} (h : ∀ d ∈ col, d = none) :
    ∀ i, firstDefinedFrom i col = (none : Option (Nat × D)) := by
  induction col with
  | nil => intro i; rfl
  | cons hd tl ih =>
    intro i
    have hhd : hd = none := h hd (by simp)
    subst hhd
    simp only [firstDefinedFrom]
    exact ih (fun d hd => h d (by simp [hd])) (i + 1)

/-- A `filterMap` that drops a member of the list is strictly shorter than
the list. -/
theorem filterMap_length_lt {α β : Type} {f : α → Option β} {l : List α} {x : α}
    (hmem : x ∈ l) (hnone : f x = none) :
    (l.filterMap f).length < l.length := by
  induction l with
  | nil => cases hmem
  | cons c rest ih =>
    rcases List.mem_cons.mp hmem with h | h
    · subst h
      rw [List.filterMap_cons, hnone]
      have hle : (rest.filterMap f).length ≤ rest.length := List.length_filterMap_le f rest
      simpa using Nat.lt_succ_of_le hle
    · rw [List.filterMap_cons]
      cases hf : f c with
      | none =>
        simpa using Nat.lt_succ_of_lt (ih h)
      | some v =>
        simpa using Nat.succ_lt_succ (ih h)

/-- C10. If some column of a step's degree data has no defined row, the
shift calculator silently appends no shift for it: that column's scan
returns without error and yields nothing, and any shift list the step
produces is strictly shorter than the step's column count. -/
theorem c10_allnull_column (prev : List D) (degs : List (List (Option D)))
    (col : List (Option D)) (hmem : col ∈ degs) (hnull : ∀ d ∈ col, d = none) :
    scanRows prev col 0 = .ok none
    ∧ ∀ g, gradeStep prev degs = .ok g → g.length < degs.length := by
  refine ⟨scanRows_all_none hnull 0, fun g hg => ?_⟩
  rw [gradeStep_ok hg, specStep]
  apply filterMap_length_lt hmem
  simp [specColumnShift, firstDefinedFrom_none hnull 0]

/-- C10, witnessed: with previous shifts `[0]` and a step whose second
column is all-undefined, the scan of that column yields nothing and the
step's shift list has length 1 against 2 columns. -/
theorem c10_witness :
    scanRows ([0] : List Int) [none, none] 0 = .ok none
    ∧ ∀ g, gradeStep ([0] : List Int) [[some 2], [none, none]] = .ok g
        → g.length < 2 := by
  have h := c10_allnull_column ([0] : List Int) [[some 2], [none, none]] [none, none]
    (by simp) (by decide)
  exact ⟨h.1, fun g hg => by simpa using h.2 g hg⟩

/-- C6, counterexample to the claim as stated: passing the unrecognized
selector string to the constructor does not produce a configuration error
(the `ValueError`/`TypeError` class raised by the explicit constructor
checks); it fails with the unbound-local error raised when the unassigned
resolution handle reaches the decoder call. -/
theorem c6_counterexample :
    GradedFreeResolution_init 4 exDegrees (none : Option (List Int)) 1 "resolution" exSRes
      = .error .unboundLocal
    ∧ isConfigError .unboundLocal = false := by
  constructor
  · rfl
  · rfl

/-- C6 as amended: an algorithm selector outside
`{minimal, shreyer, standard, heuristic}` selects no resolution command (the
dispatch has no else branch), and the constructor fails with the
unbound-local error at the decoder call, which is not a configuration
error; no resolution-engine command is invoked. -/
theorem c6_bad_algorithm (nvars rank : Nat) (degrees : List D)
    (shifts : Option (List D)) (alg : String) (sres : SRes)
    (h1 : alg ≠ "minimal") (h2 : alg ≠ "shreyer") (h3 : alg ≠ "standard")
    (h4 : alg ≠ "heuristic") (hlen : degrees.length = nvars) :
    algorithm_dispatch alg = none
    ∧ GradedFreeResolution_init nvars degrees shifts rank alg sres = .error .unboundLocal
    ∧ isConfigError .unboundLocal = false := by
  have hd : algorithm_dispatch alg = none := by
    unfold algorithm_dispatch
    rw [if_neg h1, if_neg h2, if_neg h3, if_neg h4]
  refine ⟨hd, ?_, rfl⟩
  simp [GradedFreeResolution_init, hlen, hd]

/-- C6, witnessed at the unrecognized selector string on the example
inputs. -/
theorem c6_witness :
    algorithm_dispatch "resolution" = none
    ∧ GradedFreeResolution_init 4 exDegrees (none : Option (List Int)) 1 "resolution" exSRes
        = .error .unboundLocal :=
  have h := c6_bad_algorithm 4 1 exDegrees (none : Option (List Int)) "resolution" exSRes
    (by decide) (by decide) (by decide) (by decide) (by decide)
  ⟨h.1, h.2.1⟩

/-- C5, counterexample to the claim as stated: `matrix(0)` raises the
invalid-index error although `0` is non-negative, and the modules-layout
graded `matrix` raises for the non-negative out-of-range index
`length + 1 = 3`, instead of degrading to the zero object. -/
theorem c5_counterexample :
    ¬ ((0 : Int) < 0)
    ∧ free_resolution_matrix [exMat1, exMat2] 0 = .error .indexError
    ∧ ¬ ((3 : Int) < 0)
    ∧ (3 : Int) > (([exMat1, exMat2] : List PMat).length : Int)
    ∧ graded_module_layout_matrix [exMat1, exMat2] 3 = .error .indexError := by
  refine ⟨by norm_num, rfl, by norm_num, by norm_num [exMat1, exMat2], rfl⟩

/-- C5 as amended: on a resolution with at least one stored matrix, a
negative index raises the invalid-index error in every query; a
non-negative index never raises in module lookup, differential and shifts,
and degrades to the zero object (rank 0, zero hom, empty shift list) past
the length; the `matrix` query however raises for index `0`, returns the
stored matrix for `1 <= i <= length` and an empty matrix past the length,
and the modules-layout graded `matrix` raises for every out-of-range index,
including non-negative ones. -/
theorem c5_index_semantics (g : GradedData D) (i : Int) (hmats : g.resMats ≠ []) :
    (i < 0 →
      free_resolution_getitem g.resMats i = .error .indexError
      ∧ free_resolution_differential g.resMats i = .error .indexError
      ∧ free_resolution_matrix g.resMats i = .error .indexError
      ∧ graded_shifts g i = .error .indexError
      ∧ graded_module_layout_matrix g.resMats i = .error .indexError)
    ∧ (0 ≤ i → ∃ n, free_resolution_getitem g.resMats i = .ok n
        ∧ ((g.resMats.length : Int) < i → n = 0))
    ∧ (0 ≤ i → ∃ dm, free_resolution_differential g.resMats i = .ok dm
        ∧ ((g.resMats.length : Int) < i → ∃ s t, dm = Diff.zeroHom s t))
    ∧ (0 ≤ i → ∃ l, graded_shifts g i = .ok l
        ∧ ((g.resMats.length : Int) < i → l = []))
    ∧ free_resolution_matrix g.resMats 0 = .error .indexError
    ∧ (1 ≤ i → ∃ a, free_resolution_matrix g.resMats i = .ok a
        ∧ ((g.resMats.length : Int) < i → a.nrows = 0))
    ∧ ((g.resMats.length : Int) < i → graded_module_layout_matrix g.resMats i = .error .indexError) := by
  obtain ⟨last, hlast⟩ : ∃ a, g.resMats.getLast? = some a := by
    cases hg : g.resMats.getLast? with
    | some a => exact ⟨a, rfl⟩
    | none => exact absurd (List.getLast?_eq_none_iff.mp hg) hmats
  refine ⟨fun hneg => ?_, fun hpos => ?_, fun hpos => ?_, fun hpos => ?_, ?_, fun hone => ?_, fun hbig => ?_⟩
  · refine ⟨?_, ?_, ?_, ?_, ?_⟩
    · rw [free_resolution_getitem, if_pos hneg]
    · rw [free_resolution_differential, if_pos hneg]
    · rw [free_resolution_matrix, if_pos (by omega)]
    · rw [graded_shifts, if_pos hneg]
    · rw [graded_module_layout_matrix, if_pos (Or.inl (by omega))]
  · rw [free_resolution_getitem, if_neg (by omega)]
    by_cases hgt : i > (g.resMats.length : Int)
    · rw [if_pos hgt]
      exact ⟨0, rfl, fun _ => rfl⟩
    · rw [if_neg hgt]
      by_cases heq : i = (g.resMats.length : Int)
      · rw [if_pos heq, hlast]
        exact ⟨last.ncols, rfl, fun h => absurd h (by omega)⟩
      · rw [if_neg heq]
        exact ⟨_, rfl, fun h => absurd h (by omega)⟩
  · rw [free_resolution_differential, if_neg (by omega)]
    by_cases h0 : i = 0
    · rw [if_pos h0]
      exact ⟨.initial, rfl, fun h => absurd h (by omega)⟩
    · rw [if_neg h0]
      by_cases hs : i = (g.resMats.length : Int) + 1
      · rw [if_pos hs, hlast]
        exact ⟨.zeroHom 0 last.ncols, rfl, fun _ => ⟨0, last.ncols, rfl⟩⟩
      · rw [if_neg hs]
        by_cases hb : i > (g.resMats.length : Int) + 1
        · rw [if_pos hb]
          exact ⟨.zeroHom 0 0, rfl, fun _ => ⟨0, 0, rfl⟩⟩
        · rw [if_neg hb]
          exact ⟨_, rfl, fun h => absurd h (by omega)⟩
  · rw [graded_shifts, if_neg (by omega)]
    by_cases h0 : i = 0
    · rw [if_pos h0]
      exact ⟨g.baseShifts, rfl, fun h => absurd h (by omega)⟩
    · rw [if_neg h0]
      by_cases hgt : i > (g.resMats.length : Int)
      · rw [if_pos hgt]
        exact ⟨[], rfl, fun _ => rfl⟩
      · rw [if_neg hgt]
        exact ⟨_, rfl, fun h => absurd h (by omega)⟩
  · rw [free_resolution_matrix, if_pos (by omega)]
  · rw [free_resolution_matrix, if_neg (by omega)]
    by_cases hle : i ≤ (g.resMats.length : Int)
    · rw [if_pos hle]
      exact ⟨_, rfl, fun h => absurd h (by omega)⟩
    · rw [if_neg hle]
      rw [free_resolution_differential, if_neg (by omega), if_neg (by omega)]
      by_cases hs : i = (g.resMats.length : Int) + 1
      · rw [if_pos hs, hlast]
        exact ⟨⟨0, last.ncols, List.replicate last.ncols []⟩, rfl, fun _ => rfl⟩
      · rw [if_neg hs, if_pos (by omega)]
        exact ⟨⟨0, 0, List.replicate 0 []⟩, rfl, fun _ => rfl⟩
  · rw [graded_module_layout_matrix, if_pos (Or.inr (by omega))]

/-- C5, witnessed on the example resolution: a negative index raises in
module lookup, index 5 past the length yields the empty shift list and an
empty matrix, and the modules-layout graded matrix raises there. -/
theorem c5_witness :
    free_resolution_getitem exG.resMats (-1) = .error .indexError
    ∧ graded_shifts exG 5 = .ok []
    ∧ (∃ a, free_resolution_matrix exG.resMats 5 = .ok a ∧ a.nrows = 0)
    ∧ graded_module_layout_matrix exG.resMats 5 = .error .indexError := by
  have hneg := (c5_index_semantics exG (-1) (by decide)).1 (by norm_num)
  have h5 := c5_index_semantics exG 5 (by decide)
  have hlen : ((exG.resMats.length : Int) < 5) := by decide
  obtain ⟨l, hl, hl0⟩ := h5.2.2.2.1 (by norm_num)
  obtain ⟨a, ha, ha0⟩ := h5.2.2.2.2.2.1 (by norm_num)
  exact ⟨hneg.1, by rw [hl, hl0 hlen], ⟨a, ha, ha0 hlen⟩, h5.2.2.2.2.2.2 hlen⟩

/-- If a column has a defined entry, a row scan that returns without error
yields a shift. -/
theorem scanRows_isSome {prev : List D} {col : List (Option D)} {i : Nat} {s : Option D}
    (h : scanRows prev col i = .ok s) (hdef : ∃ d ∈ col, d.isSome) : s.isSome := by
  induction col generalizing i with
  | nil => rcases hdef with ⟨d, hd, _⟩; cases hd
  | cons hd tl ih =>
    cases hd with
    | some d =>
      simp only [scanRows, pyGet] at h
      cases hget : prev.get? i with
      | none => rw [hget] at h; cases h
      | some e => rw [hget] at h; cases h; rfl
    | none =>
      simp only [scanRows] at h
      apply ih h
      rcases hdef with ⟨d, hd, hds⟩
      rcases List.mem_cons.mp hd with rfl | hd
      · simp at hds
      · exact ⟨d, hd, hds⟩

/-- If every column of a step has a defined entry, a step that returns
without error yields one shift per column. -/
theorem gradeStep_length {prev : List D} {degs : List (List (Option D))} {g : List D}
    (h : gradeStep prev degs = .ok g)
    (hdef : ∀ col ∈ degs, ∃ d ∈ col, d.isSome) : g.length = degs.length := by
  induction degs generalizing g with
  | nil => simp only [gradeStep] at h; cases h; rfl
  | cons col rest ih =>
    cases hs : scanRows prev col 0 with
    | error e => simp [gradeStep, hs] at h
    | ok s =>
      cases hr : gradeStep prev rest with
      | error e => simp [gradeStep, hs, hr] at h
      | ok others =>
        have hss : s.isSome := scanRows_isSome hs (hdef col (by simp))
        cases s with
        | none => simp at hss
        | some v =>
          simp only [gradeStep, hs, hr] at h
          cases h
          simp [ih hr (fun c hc => hdef c (by simp [hc]))]

/-- If every column of every step has a defined entry, the calculator
produces one shift list per step, each as long as its step has columns. -/
theorem compute_res_shifts_lengths {prev : List D} {l : List (List (List (Option D)))}
    {out : List (List D)} (h : compute_res_shifts prev l = .ok out)
    (hdef : ∀ degs ∈ l, ∀ col ∈ degs, ∃ d ∈ col, d.isSome) :
    out.length = l.length
    ∧ ∀ k : Nat, (out.getD k []).length = (l.getD k []).length := by
  induction l generalizing prev out with
  | nil =>
    simp only [compute_res_shifts] at h
    cases h
    exact ⟨rfl, fun k => by cases k <;> rfl⟩
  | cons degs rest ih =>
    cases hg : gradeStep prev degs with
    | error e => simp [compute_res_shifts, hg] at h
    | ok g =>
      cases hr : compute_res_shifts g rest with
      | error e => simp [compute_res_shifts, hg, hr] at h
      | ok rs =>
        simp only [compute_res_shifts, hg, hr] at h
        cases h
        have hihyp := ih hr (fun ds hds => hdef ds (by simp [hds]))
        refine ⟨by simp [hihyp.1], fun k => ?_⟩
        cases k with
        | zero =>
          simpa using gradeStep_length hg (hdef degs (by simp))
        | succ k =>
          simpa using hihyp.2 k

/-- A decoded module has one degree column per matrix column. -/
theorem decodeSMod_len (degrees : List D) (m : SMod) :
    (decodeSMod degrees m).2.length = (decodeSMod degrees m).1.ncols := by
  simp [decodeSMod]

/-- Every matrix the decoder walk keeps has one degree column per matrix
column. -/
theorem to_sage_resolution_list_len (degrees : List D) (mods : List (Option SMod)) :
    ∀ md ∈ to_sage_resolution_list degrees mods, md.2.length = md.1.ncols := by
  induction mods with
  | nil => simp [to_sage_resolution_list]
  | cons hd tl ih =>
    cases hd with
    | none => simp [to_sage_resolution_list]
    | some m =>
      by_cases hz : modZero degrees m = true
      · simp [to_sage_resolution_list, hz]
      · intro md hmd
        rw [to_sage_resolution_list, if_neg hz] at hmd
        rcases List.mem_cons.mp hmd with rfl | hmd
        · exact decodeSMod_len degrees m
        · exact ih md hmd

/-- Every matrix the graded decoder returns has one degree column per
matrix column. -/
theorem to_sage_resolution_graded_len (degrees : List D) (r : SRes)
    {dec : List (PMat × List (List (Option D)))}
    (h : to_sage_resolution_graded degrees r = .ok dec) :
    ∀ md ∈ dec, md.2.length = md.1.ncols := by
  unfold to_sage_resolution_graded at h
  cases hm : r.minres with
  | some mods =>
    rw [hm] at h
    cases h
    exact to_sage_resolution_list_len degrees mods
  | none =>
    rw [hm] at h
    cases hf : r.fullres with
    | some mods =>
      rw [hf] at h
      cases h
      exact to_sage_resolution_list_len degrees mods
    | none => rw [hf] at h; cases h

/-- Membership in the dictionary-key list is membership in the source
list. -/
theorem pyDictKeys_mem {l : List D} {a : D} : a ∈ pyDictKeys l ↔ a ∈ l := by
  induction l with
  | nil => simp [pyDictKeys]
  | cons s rest ih =>
    simp only [pyDictKeys, List.mem_cons, List.mem_filter]
    constructor
    · rintro (rfl | ⟨h, _⟩)
      · exact Or.inl rfl
      · exact Or.inr (ih.mp h)
    · rintro (rfl | h)
      · exact Or.inl rfl
      · by_cases ha : a = s
        · exact Or.inl ha
        · exact Or.inr ⟨ih.mpr h, by simp [ha]⟩

/-- The dictionary-key list contains no duplicates. -/
theorem pyDictKeys_nodup (l : List D) : (pyDictKeys l).Nodup := by
  induction l with
  | nil => simp [pyDictKeys]
  | cons s rest ih =>
    simp only [pyDictKeys]
    refine List.Nodup.cons ?_ (List.Nodup.filter _ ih)
    intro hmem
    have h := List.mem_filter.mp hmem
    simp at h

/-- Summing, over the distinct values of a list, the number of occurrences
of each value recovers the list length. -/
theorem pyDict_sum_count (s : List D) :
    ((pyDictKeys s).map (fun a => (s.filter (fun d => d = a)).length)).sum = s.length := by
  have h1 : ∀ a : D, (s.filter (fun d => d = a)).length = s.count a := by
    intro a
    rw [List.count, List.countP_eq_length_filter]
    congr 1
  calc ((pyDictKeys s).map (fun a => (s.filter (fun d => d = a)).length)).sum
      = ((pyDictKeys s).map (fun a => s.count a)).sum := by
        apply congrArg
        apply List.map_congr_left
        intro a _
        exact h1 a
    _ = ∑ a ∈ (pyDictKeys s).toFinset, s.count a :=
        (List.sum_toFinset _ (pyDictKeys_nodup s)).symm
    _ = ∑ a ∈ s.toFinset, s.count a := by
        apply Finset.sum_congr
        · ext a
          simp [List.mem_toFinset, pyDictKeys_mem]
        · intro a _
          rfl
    _ = s.length := by
        have h2 := Multiset.toFinset_sum_count_eq (s : Multiset D)
        simpa using h2

/-- The shift query inside the resolution's range reads the stored shift
list of the step. -/
theorem graded_shifts_in_range (g : GradedData D) (i : Int) (h1 : 1 ≤ i)
    (h2 : i ≤ (g.resMats.length : Int)) :
    graded_shifts g i = .ok (g.resShifts.getD (i.toNat - 1) []) := by
  rw [graded_shifts, if_neg (by omega), if_neg (by omega), if_neg (by omega)]

/-- C4. For a resolution assembled from the decoder's output and the shift
calculator, if every decoded column has a defined degree entry, then at
every step `1 <= i <= length` the Betti counts sum over all degrees to the
column count of `matrix(i)`. -/
theorem c4_betti_consistency (degrees prev : List D) (sres : SRes)
    (dec : List (PMat × List (List (Option D)))) (rs : List (List D))
    (hdec : to_sage_resolution_graded degrees sres = .ok dec)
    (hrs : compute_res_shifts prev (dec.map Prod.snd) = .ok rs)
    (hdef : ∀ dm ∈ dec.map Prod.snd, ∀ col ∈ dm, ∃ d ∈ col, d.isSome)
    (i : Int) (h1 : 1 ≤ i) (h2 : i ≤ ((dec.map Prod.fst).length : Int)) :
    ∃ (bd : List (D × Nat)) (a : PMat),
      graded_betti_all ⟨prev, dec.map Prod.fst, rs⟩ i = .ok bd
      ∧ free_resolution_matrix (dec.map Prod.fst) i = .ok a
      ∧ (bd.map Prod.snd).sum = a.ncols := by
  have hklt : i.toNat - 1 < dec.length := by
    simp only [List.length_map] at h2
    omega
  have hsh : graded_shifts (⟨prev, dec.map Prod.fst, rs⟩ : GradedData D) i
      = .ok (rs.getD (i.toNat - 1) []) :=
    graded_shifts_in_range _ i h1 (by simpa using h2)
  have hmat : free_resolution_matrix (dec.map Prod.fst) i
      = .ok ((dec.map Prod.fst).getD (i.toNat - 1) default) := by
    rw [free_resolution_matrix, if_neg (by omega), if_pos h2]
  have hba : graded_betti_all (⟨prev, dec.map Prod.fst, rs⟩ : GradedData D) i
      = .ok ((pyDictKeys (rs.getD (i.toNat - 1) [])).map
          (fun a => (a, ((rs.getD (i.toNat - 1) []).filter (fun d => d = a)).length))) := by
    unfold graded_betti_all
    rw [hsh]
  refine ⟨_, _, hba, hmat, ?_⟩
  rw [List.map_map]
  have hsum := pyDict_sum_count (rs.getD (i.toNat - 1) [])
  have hcomp : ((fun p => p.2) ∘ fun a => (a, ((rs.getD (i.toNat - 1) []).filter (fun d => d = a)).length))
      = fun a => ((rs.getD (i.toNat - 1) []).filter (fun d => d = a)).length := rfl
  rw [hcomp, hsum]
  have hlens := (compute_res_shifts_lengths hrs hdef).2 (i.toNat - 1)
  rw [hlens]
  have hmapsnd : (dec.map Prod.snd).getD (i.toNat - 1) [] = (dec.getD (i.toNat - 1) default).2 := by
    rw [List.getD_eq_getElem _ _ (by simpa using hklt),
      List.getD_eq_getElem _ _ hklt]
    simp
  have hmapfst : (dec.map Prod.fst).getD (i.toNat - 1) default = (dec.getD (i.toNat - 1) default).1 := by
    rw [List.getD_eq_getElem _ _ (by simpa using hklt),
      List.getD_eq_getElem _ _ hklt]
    simp
  rw [hmapsnd, hmapfst]
  apply to_sage_resolution_graded_len degrees sres hdec
  rw [List.getD_eq_getElem _ _ hklt]
  exact List.getElem_mem hklt

/-- The decoded matrix and degree data of the example resolution. -/
def exDec : List (PMat × List (List (Option Int))) :=
  [decodeSMod exDegrees exMod1, decodeSMod exDegrees exMod2]

/-- C4, witnessed at step 1 of the example: the Betti counts sum to the
3 columns of the first matrix. -/
theorem c4_witness :
    ∃ (bd : List (Int × Nat)) (a : PMat),
      graded_betti_all (⟨[0], exDec.map Prod.fst, [[2, 2, 2], [3, 3]]⟩ : GradedData Int) 1
          = .ok bd
      ∧ free_resolution_matrix (exDec.map Prod.fst) 1 = .ok a
      ∧ (bd.map Prod.snd).sum = a.ncols :=
  c4_betti_consistency exDegrees [0] exSRes exDec [[2, 2, 2], [3, 3]]
    (by decide) (by decide) (by decide) 1 (by norm_num) (by decide)

end SageRes
